import Mathlib

/-!
Shallow embedding of the spatial-divergence core of `pct-diff`
(`src/compare.rs`) and proofs about it.

Numeric model: `f64` values are modelled as rationals (`ℚ`), with arithmetic
exact.  The great-circle (haversine) metric comes from the external `geo`
crate, so every function below is parametrised by an abstract metric
`dist : Coord → Coord → ℚ`; hypotheses used by a theorem (e.g. `dist c c = 0`)
are stated explicitly and are true of the real haversine distance.
`f64::MAX` is modelled by its exact rational value `fMAX`.
-/

namespace PctDiff

/-- A coordinate pair `(x, y)` = (longitude, latitude), mirroring
`geo::Coord<f64>`. -/
structure Coord where
  x : ℚ
  y : ℚ
deriving DecidableEq, Repr

/-- The epsilon `1e-10` used by the degenerate-geometry guards in
`compare.rs`. -/
def eps : ℚ := 1 / 10 ^ 10

/-- The exact rational value of `f64::MAX`, used by `process_linestring` as
the distance for a sample when the index has no nearest neighbor. -/
def fMAX : ℚ := (2 ^ 53 - 1) * 2 ^ 971

/-- A single OSM line segment stored in the R-tree (`IndexedSegment`,
wrapping `geo::Line { start, end }`; the `end` field is called `stop` here
because `end` is a Lean keyword). -/
structure IndexedSegment where
  start : Coord
  stop : Coord
deriving DecidableEq, Repr

/-- `haversine_point_to_segment` from `compare.rs`: distance from a point to
a line segment — great-circle distance to the planar-projection closest
point, with the `< 1e-10` degenerate-segment guard. -/
def haversine_point_to_segment (dist : Coord → Coord → ℚ)
    (point seg_start seg_end : Coord) : ℚ :=
  let ab_len := dist seg_start seg_end
  if ab_len < eps then dist point seg_start
  else
    let dx := seg_end.x - seg_start.x
    let dy := seg_end.y - seg_start.y
    let t := ((point.x - seg_start.x) * dx + (point.y - seg_start.y) * dy) /
      (dx * dx + dy * dy)
    let t' := min (max t 0) 1
    dist point ⟨seg_start.x + t' * dx, seg_start.y + t' * dy⟩

/-- `IndexedSegment::distance_2`: the R-tree ordering key — the squared
point-to-segment haversine distance. -/
def distance_2 (dist : Coord → Coord → ℚ) (seg : IndexedSegment)
    (point : Coord) : ℚ :=
  let d := haversine_point_to_segment dist point seg.start seg.stop
  d * d

/-- `rstar`'s `nearest_neighbor`: the segment minimising `distance_2`
(modelled as a fold over the stored segments; `none` on an empty index). -/
def nearestNeighbor (dist : Coord → Coord → ℚ) (index : List IndexedSegment)
    (point : Coord) : Option IndexedSegment :=
  index.foldl
    (fun best seg =>
      match best with
      | none => some seg
      | some b =>
        if distance_2 dist seg point < distance_2 dist b point then some seg
        else some b)
    none

/-- The consecutive vertex pairs of a linestring (`LineString::lines()`). -/
def lines (ls : List Coord) : List (Coord × Coord) :=
  ls.zip ls.tail

/-- `LineString::length::<Haversine>()`: sum of the segment lengths. -/
def lineStringLength (dist : Coord → Coord → ℚ) (ls : List Coord) : ℚ :=
  ((lines ls).map (fun ab => dist ab.1 ab.2)).sum

/-- `build_index` from `compare.rs`: explode each OSM linestring into its
consecutive segments (the R-tree itself is modelled as the list of stored
segments). -/
def build_index (osm_lines : List (List Coord)) : List IndexedSegment :=
  osm_lines.flatMap (fun ls => (lines ls).map (fun ab => ⟨ab.1, ab.2⟩))

/-- The number of iterations of the sampling `while offset <= seg_len` loop
in `sample_along`, for a positive interval (for `interval_m ≤ 0` the Rust
loop does not terminate; the model performs zero iterations there). -/
def sampleCount (interval_m seg_len offset : ℚ) : ℕ :=
  if 0 < interval_m ∧ offset ≤ seg_len then
    (⌊(seg_len - offset) / interval_m⌋ + 1).toNat
  else 0

/-- `n` iterations of the body of the sampling loop: emit the interpolated
point at `t = offset / seg_len` and advance `offset` by `interval_m`.
Returns the emitted points and the final `offset`. -/
def sampleSteps (interval_m seg_len : ℚ) (a b : Coord) :
    ℚ → ℕ → List Coord × ℚ
  | offset, 0 => ([], offset)
  | offset, n + 1 =>
    let t := offset / seg_len
    let c : Coord := ⟨a.x + t * (b.x - a.x), a.y + t * (b.y - a.y)⟩
    let rest := sampleSteps interval_m seg_len a b (offset + interval_m) n
    (c :: rest.1, rest.2)

/-- The `while offset <= seg_len` loop of `sample_along`. -/
def sampleLoop (interval_m seg_len : ℚ) (a b : Coord) (offset : ℚ) :
    List Coord × ℚ :=
  sampleSteps interval_m seg_len a b offset
    (sampleCount interval_m seg_len offset)

/-- The per-segment step of `sample_along`'s fold over the linestring's
segments: skip segments shorter than `1e-10`, otherwise run the sampling
loop starting from the carried-over `remaining` offset and carry
`offset - seg_len` into the next segment. -/
def sampleStep (dist : Coord → Coord → ℚ) (interval_m : ℚ)
    (st : List Coord × ℚ) (line : Coord × Coord) : List Coord × ℚ :=
  let seg_len := dist line.1 line.2
  if seg_len < eps then st
  else
    let res := sampleLoop interval_m seg_len line.1 line.2 st.2
    (st.1 ++ res.1, res.2 - seg_len)

/-- `sample_along` from `compare.rs`: sample points along a linestring at
regular `interval_m` arc-length intervals, always starting with the first
vertex and appending the last vertex when the last emitted sample differs
from it.  A linestring with fewer than 2 points is returned unchanged. -/
def sample_along (dist : Coord → Coord → ℚ) (ls : List Coord)
    (interval_m : ℚ) : List Coord :=
  if ls.length < 2 then ls
  else
    let r := (lines ls).foldl (sampleStep dist interval_m) (ls.take 1, interval_m)
    match ls.getLast? with
    | none => r.1
    | some last => if r.1.getLast? = some last then r.1 else r.1 ++ [last]

/-- A detected divergence (`Divergence` in `compare.rs`). -/
structure Divergence where
  pcta_segment : List Coord
  section_name : String
  max_distance_m : ℚ
  mean_distance_m : ℚ
  length_m : ℚ
deriving DecidableEq, Repr

/-- `emit_divergence` from `compare.rs`: drop a run whose linestring length
is below `min_length_m`, otherwise build the `Divergence` record (the Rust
function pushes into a `Vec`; modelled as an `Option`). -/
def emit_divergence (dist : Coord → Coord → ℚ) (run : List (Coord × ℚ))
    (section_name : String) (min_length_m : ℚ) : Option Divergence :=
  let coords := run.map (fun cd => cd.1)
  let length := lineStringLength dist coords
  if length < min_length_m then none
  else
    some
      { pcta_segment := coords
        section_name := section_name
        max_distance_m := (run.map (fun cd => cd.2)).foldl max 0
        mean_distance_m := (run.map (fun cd => cd.2)).sum / (run.length : ℚ)
        length_m := length }

/-- The distance assigned to one sample in `process_linestring`:
`nearest_neighbor(point).map(point_to_segment).unwrap_or(f64::MAX)`. -/
def sampleDistance (dist : Coord → Coord → ℚ) (index : List IndexedSegment)
    (coord : Coord) : ℚ :=
  match nearestNeighbor dist index coord with
  | some seg => haversine_point_to_segment dist coord seg.start seg.stop
  | none => fMAX

/-- The run-detection state machine of `process_linestring`: a linear scan
over the `(point, distance)` pairs carrying the pending open run
(`run_start: Option<usize>` in Rust; here the pending run's elements), with
the empty-list case playing the role of the sentinel iteration `i = len`
that closes a pending run.  Returns the finalized runs in order. -/
def detectRuns (threshold_m : ℚ) :
    List (Coord × ℚ) → Option (List (Coord × ℚ)) → List (List (Coord × ℚ))
  | [], none => []
  | [], some run => [run]
  | x :: rest, none =>
    if threshold_m < x.2 then detectRuns threshold_m rest (some [x])
    else detectRuns threshold_m rest none
  | x :: rest, some run =>
    if threshold_m < x.2 then detectRuns threshold_m rest (some (run ++ [x]))
    else run :: detectRuns threshold_m rest none

/-- `process_linestring` from `compare.rs`. -/
def process_linestring (dist : Coord → Coord → ℚ) (ls : List Coord)
    (section_name : String) (osm_index : List IndexedSegment)
    (threshold_m min_length_m sample_interval_m : ℚ) : List Divergence :=
  let samples := sample_along dist ls sample_interval_m
  if samples.isEmpty then []
  else
    let distances := samples.map (fun c => (c, sampleDistance dist osm_index c))
    (detectRuns threshold_m distances none).filterMap
      (fun run => emit_divergence dist run section_name min_length_m)

/-- A section of the PCTA trail (`PctaSection`): a name and a
multi-linestring geometry. -/
structure PctaSection where
  section_name : String
  geometry : List (List Coord)
deriving DecidableEq, Repr

/-- `find_divergences` from `compare.rs`: run `process_linestring` over
every linestring of every section and concatenate. -/
def find_divergences (dist : Coord → Coord → ℚ)
    (pcta_sections : List PctaSection) (osm_index : List IndexedSegment)
    (threshold_m min_length_m sample_interval_m : ℚ) : List Divergence :=
  pcta_sections.flatMap (fun s =>
    s.geometry.flatMap (fun ls =>
      process_linestring dist ls s.section_name osm_index
        threshold_m min_length_m sample_interval_m))

/-- A concrete computable metric used to instantiate the abstract `dist`
parameter in witnesses and counterexamples: the L1 distance on coordinate
space (like the haversine distance it is symmetric, nonnegative and zero
exactly on equal points). -/
def l1dist (p q : Coord) : ℚ := |q.x - p.x| + |q.y - p.y|

/-! ### The spec-side description of the divergence detector

`maximalRunsSpec p xs` is the list of maximal contiguous runs of elements
of `xs` satisfying `p`, written directly from the specification's words:
a run opens at the first satisfying element after a non-satisfying
position, extends while `p` holds, and closes at the first non-satisfying
element or at the end of the sequence. -/

theorem length_dropWhile_le (p : α → Bool) (xs : List α) :
    (xs.dropWhile p).length ≤ xs.length := by
  induction xs with
  | nil => simp
  | cons x xs ih =>
    by_cases h : p x
    · rw [List.dropWhile_cons, if_pos h]
      exact Nat.le_succ_of_le ih
    · rw [List.dropWhile_cons, if_neg h]

/-- Maximal contiguous runs of `p`-satisfying elements, as the spec
describes them. -/
def maximalRunsSpec (p : α → Bool) : List α → List (List α)
  | [] => []
  | x :: xs =>
    if p x then (x :: xs.takeWhile p) :: maximalRunsSpec p (xs.dropWhile p)
    else maximalRunsSpec p xs
termination_by xs => xs.length
decreasing_by
  · exact Nat.lt_succ_of_le (length_dropWhile_le p xs)
  · exact Nat.lt_succ_self _

/-- With a pending open run, the state machine closes it exactly at the
first non-divergent sample (or at the sentinel end-of-sequence iteration),
having extended it by the divergent prefix. -/
theorem detectRuns_some_eq (th : ℚ) (xs : List (Coord × ℚ))
    (run : List (Coord × ℚ)) :
    detectRuns th xs (some run) =
      (run ++ xs.takeWhile (fun x => decide (th < x.2))) ::
        detectRuns th (xs.dropWhile (fun x => decide (th < x.2))) none := by
  induction xs generalizing run with
  | nil => simp [detectRuns]
  | cons x rest ih =>
    by_cases h : th < x.2
    · rw [detectRuns, if_pos h, ih, List.takeWhile_cons, List.dropWhile_cons]
      simp [h]
    · rw [detectRuns, if_neg h, List.takeWhile_cons, List.dropWhile_cons]
      simp only [decide_eq_true_eq, h, if_false, List.append_nil]
      rw [detectRuns, if_neg h]

theorem detectRuns_none_eq (th : ℚ) (xs : List (Coord × ℚ)) :
    detectRuns th xs none =
      maximalRunsSpec (fun x => decide (th < x.2)) xs := by
  suffices H : ∀ n (xs : List (Coord × ℚ)), xs.length = n →
      detectRuns th xs none = maximalRunsSpec (fun x => decide (th < x.2)) xs
    from H _ xs rfl
  intro n
  induction n using Nat.strong_induction_on with
  | _ n ih =>
    intro xs hn
    match xs with
    | [] => simp [detectRuns, maximalRunsSpec]
    | x :: rest =>
      by_cases h : th < x.2
      · have hrec : detectRuns th
            (rest.dropWhile (fun x => decide (th < x.2))) none =
            maximalRunsSpec (fun x => decide (th < x.2))
              (rest.dropWhile (fun x => decide (th < x.2))) := by
          refine ih _ ?_ _ rfl
          rw [← hn, List.length_cons]
          exact Nat.lt_succ_of_le (length_dropWhile_le _ rest)
        rw [detectRuns, if_pos h, detectRuns_some_eq, hrec, maximalRunsSpec,
          if_pos (show decide (th < x.2) = true by simpa using h)]
        simp
      · have hrec : detectRuns th rest none =
            maximalRunsSpec (fun x => decide (th < x.2)) rest := by
          refine ih _ ?_ _ rfl
          rw [← hn, List.length_cons]
          exact Nat.lt_succ_self _
        rw [detectRuns, if_neg h, hrec, maximalRunsSpec,
          if_neg (show ¬decide (th < x.2) = true by simpa using h)]

/-- Every run finalized by the state machine is nonempty, and each of its
samples is divergent and drawn from the scanned sequence (stated with the
pending-run accumulator generalized). -/
theorem detectRuns_mem_general (th : ℚ) (Q : Coord × ℚ → Prop)
    (xs : List (Coord × ℚ)) (st : Option (List (Coord × ℚ)))
    (hst : ∀ acc, st = some acc → acc ≠ [] ∧ ∀ x ∈ acc, th < x.2 ∧ Q x)
    (hxs : ∀ x ∈ xs, th < x.2 → Q x) :
    ∀ run ∈ detectRuns th xs st, run ≠ [] ∧ ∀ x ∈ run, th < x.2 ∧ Q x := by
  induction xs generalizing st with
  | nil =>
    match st with
    | none => simp [detectRuns]
    | some acc =>
      intro run hrun
      simp only [detectRuns, List.mem_singleton] at hrun
      exact hrun ▸ hst acc rfl
  | cons x rest ih =>
    have hxrest : ∀ y ∈ rest, th < y.2 → Q y :=
      fun y hy => hxs y (List.mem_cons_of_mem _ hy)
    match st with
    | none =>
      by_cases h : th < x.2
      · rw [detectRuns, if_pos h]
        refine ih (some [x]) ?_ hxrest
        rintro acc ⟨rfl⟩
        refine ⟨by simp, ?_⟩
        intro y hy
        rcases List.mem_singleton.1 hy with rfl
        exact ⟨h, hxs y (List.mem_cons_self y rest) h⟩
      · rw [detectRuns, if_neg h]
        exact ih none (by rintro acc ⟨⟩) hxrest
    | some acc =>
      by_cases h : th < x.2
      · rw [detectRuns, if_pos h]
        refine ih (some (acc ++ [x])) ?_ hxrest
        rintro acc' ⟨rfl⟩
        refine ⟨by simp, ?_⟩
        intro y hy
        rcases List.mem_append.1 hy with hy | hy
        · exact (hst acc rfl).2 y hy
        · rcases List.mem_singleton.1 hy with rfl
          exact ⟨h, hxs y (List.mem_cons_self y rest) h⟩
      · rw [detectRuns, if_neg h]
        intro run hrun
        rcases List.mem_cons.1 hrun with rfl | hrun
        · exact hst run rfl
        · exact ih none (by rintro acc' ⟨⟩) hxrest run hrun

theorem detectRuns_mem (th : ℚ) (xs : List (Coord × ℚ)) :
    ∀ run ∈ detectRuns th xs none,
      run ≠ [] ∧ ∀ x ∈ run, th < x.2 ∧ x ∈ xs :=
  detectRuns_mem_general th (· ∈ xs) xs none (by rintro acc ⟨⟩)
    (fun x hx _ => hx)

/-! ### Nearest-neighbor and fold lemmas -/

theorem eps_pos : 0 < eps := by norm_num [eps]

theorem fMAX_pos : 0 < fMAX := by norm_num [fMAX]

theorem nearestNeighbor_nil (dist : Coord → Coord → ℚ) (q : Coord) :
    nearestNeighbor dist [] q = none := rfl

/-- On a nonempty index, `nearest_neighbor` returns a stored segment whose
ordering key `distance_2` is minimal. -/
theorem nearestNeighbor_min (dist : Coord → Coord → ℚ)
    (index : List IndexedSegment) (q : Coord) (h : index ≠ []) :
    ∃ r, nearestNeighbor dist index q = some r ∧ r ∈ index ∧
      ∀ s ∈ index, distance_2 dist r q ≤ distance_2 dist s q := by
  have aux : ∀ (l : List IndexedSegment) (b : IndexedSegment),
      ∃ r, l.foldl (fun best seg =>
          match best with
          | none => some seg
          | some bb =>
            if distance_2 dist seg q < distance_2 dist bb q then some seg
            else some bb) (some b) = some r ∧
        (r = b ∨ r ∈ l) ∧ distance_2 dist r q ≤ distance_2 dist b q ∧
        ∀ s ∈ l, distance_2 dist r q ≤ distance_2 dist s q := by
    intro l
    induction l with
    | nil => exact fun b => ⟨b, rfl, Or.inl rfl, le_refl _, by simp⟩
    | cons s rest ih =>
      intro b
      by_cases hlt : distance_2 dist s q < distance_2 dist b q
      · obtain ⟨r, hr, hmem, hle, hall⟩ := ih s
        refine ⟨r, ?_, ?_, le_of_lt (lt_of_le_of_lt hle hlt), ?_⟩
        · simpa [List.foldl_cons, hlt] using hr
        · rcases hmem with rfl | hm
          · exact Or.inr (List.mem_cons_self _ _)
          · exact Or.inr (List.mem_cons_of_mem _ hm)
        · intro s' hs'
          rcases List.mem_cons.1 hs' with rfl | hs'
          · exact hle
          · exact hall s' hs'
      · obtain ⟨r, hr, hmem, hle, hall⟩ := ih b
        refine ⟨r, ?_, ?_, hle, ?_⟩
        · simpa [List.foldl_cons, hlt] using hr
        · rcases hmem with rfl | hm
          · exact Or.inl rfl
          · exact Or.inr (List.mem_cons_of_mem _ hm)
        · intro s' hs'
          rcases List.mem_cons.1 hs' with rfl | hs'
          · exact le_trans hle (le_of_not_lt hlt)
          · exact hall s' hs'
  match index with
  | s :: rest =>
    obtain ⟨r, hr, hmem, hle, hall⟩ := aux rest s
    refine ⟨r, ?_, ?_, ?_⟩
    · simpa [nearestNeighbor, List.foldl_cons] using hr
    · rcases hmem with rfl | hm
      · exact List.mem_cons_self _ _
      · exact List.mem_cons_of_mem _ hm
    · intro s' hs'
      rcases List.mem_cons.1 hs' with rfl | hs'
      · exact hle
      · exact hall s' hs'

/-- `nearest(point)` returns `None` iff the index is empty. -/
theorem nearestNeighbor_eq_none_iff (dist : Coord → Coord → ℚ)
    (index : List IndexedSegment) (q : Coord) :
    nearestNeighbor dist index q = none ↔ index = [] := by
  constructor
  · intro h
    by_contra hne
    obtain ⟨r, hr, -, -⟩ := nearestNeighbor_min dist index q hne
    rw [h] at hr
    exact Option.noConfusion hr
  · rintro rfl
    rfl

theorem foldl_max_le_self (l : List ℚ) : ∀ a : ℚ, a ≤ l.foldl max a := by
  induction l with
  | nil => exact fun a => le_refl a
  | cons x rest ih =>
    intro a
    exact le_trans (le_max_left a x) (ih (max a x))

theorem mem_le_foldl_max (l : List ℚ) :
    ∀ (a : ℚ) (x : ℚ), x ∈ l → x ≤ l.foldl max a := by
  induction l with
  | nil => intro a x h; exact absurd h (List.not_mem_nil x)
  | cons y rest ih =>
    intro a x hx
    rcases List.mem_cons.1 hx with rfl | hx
    · exact le_trans (le_max_right a x) (foldl_max_le_self rest (max a x))
    · exact ih (max a y) x hx

/-! ### Geometry lemmas about the planar projection -/

/-- Linear interpolation in coordinate space — the closed form of both the
sampler's emitted point and the projection's closest point. -/
def interp (a b : Coord) (t : ℚ) : Coord :=
  ⟨a.x + t * (b.x - a.x), a.y + t * (b.y - a.y)⟩

theorem interp_zero (a b : Coord) : interp a b 0 = a := by
  simp [interp]

theorem interp_one (a b : Coord) : interp a b 1 = b := by
  cases a; cases b
  simp only [interp, Coord.mk.injEq]
  constructor <;> ring

/-- The degenerate branch of `haversine_point_to_segment`. -/
theorem hpts_degenerate (dist : Coord → Coord → ℚ) (p a b : Coord)
    (hab : dist a b < eps) :
    haversine_point_to_segment dist p a b = dist p a := by
  rw [haversine_point_to_segment, if_pos hab]

/-- The projection branch of `haversine_point_to_segment`, with the
closest point written via `interp`. -/
theorem hpts_else (dist : Coord → Coord → ℚ) (p a b : Coord)
    (hab : ¬ dist a b < eps) :
    haversine_point_to_segment dist p a b =
      dist p (interp a b (min (max
        (((p.x - a.x) * (b.x - a.x) + (p.y - a.y) * (b.y - a.y)) /
          ((b.x - a.x) * (b.x - a.x) + (b.y - a.y) * (b.y - a.y))) 0) 1)) := by
  rw [haversine_point_to_segment, if_neg hab]
  rfl

/-- A point that lies on a segment (parameter `t ∈ [0,1]`) whose endpoints
are not within the degeneracy epsilon has point-to-segment distance zero:
the planar projection recovers the point itself. -/
theorem hpts_interp (dist : Coord → Coord → ℚ) (hz : ∀ c, dist c c = 0)
    (a b : Coord) (t : ℚ) (hab : ¬ dist a b < eps)
    (h0 : 0 ≤ t) (h1 : t ≤ 1) :
    haversine_point_to_segment dist (interp a b t) a b = 0 := by
  have hD : (b.x - a.x) * (b.x - a.x) + (b.y - a.y) * (b.y - a.y) ≠ 0 := by
    intro hDeq
    have hx2 : (0:ℚ) ≤ (b.x - a.x) * (b.x - a.x) := mul_self_nonneg _
    have hy2 : (0:ℚ) ≤ (b.y - a.y) * (b.y - a.y) := mul_self_nonneg _
    have hx : b.x - a.x = 0 := by
      have := (add_eq_zero_iff_of_nonneg hx2 hy2).1 hDeq
      exact mul_self_eq_zero.1 this.1
    have hy : b.y - a.y = 0 := by
      have := (add_eq_zero_iff_of_nonneg hx2 hy2).1 hDeq
      exact mul_self_eq_zero.1 this.2
    have hba : b = a := by
      cases a; cases b
      simp only [Coord.mk.injEq]
      constructor
      · linarith [hx]
      · linarith [hy]
    rw [hba, hz] at hab
    exact hab eps_pos
  rw [hpts_else dist _ a b hab]
  have hnum : ((interp a b t).x - a.x) * (b.x - a.x) +
      ((interp a b t).y - a.y) * (b.y - a.y) =
      t * ((b.x - a.x) * (b.x - a.x) + (b.y - a.y) * (b.y - a.y)) := by
    simp only [interp]
    ring
  rw [hnum, mul_div_assoc, div_self hD, mul_one, max_eq_left h0,
    min_eq_left h1]
  exact hz _

/-- A segment's start vertex has point-to-segment distance zero to the
segment (this also covers the degenerate branch). -/
theorem hpts_start (dist : Coord → Coord → ℚ) (hz : ∀ c, dist c c = 0)
    (a b : Coord) : haversine_point_to_segment dist a a b = 0 := by
  by_cases hab : dist a b < eps
  · rw [haversine_point_to_segment, if_pos hab]
    exact hz a
  · have := hpts_interp dist hz a b 0 hab (le_refl 0) (by norm_num)
    rwa [interp_zero] at this

/-! ### Sampling-loop lemmas -/

theorem sampleSteps_snd (i s : ℚ) (a b : Coord) :
    ∀ (n : ℕ) (offset : ℚ),
      (sampleSteps i s a b offset n).2 = offset + n * i := by
  intro n
  induction n with
  | zero => intro offset; simp [sampleSteps]
  | succ n ih =>
    intro offset
    rw [sampleSteps, ih]
    push_cast
    ring

theorem sampleSteps_fst_mem (i s : ℚ) (a b : Coord) :
    ∀ (n : ℕ) (offset : ℚ) (c : Coord),
      c ∈ (sampleSteps i s a b offset n).1 →
      ∃ k : ℕ, k < n ∧ c = interp a b ((offset + k * i) / s) := by
  intro n
  induction n with
  | zero => intro offset c h; exact absurd h (List.not_mem_nil c)
  | succ n ih =>
    intro offset c hc
    rw [sampleSteps] at hc
    rcases List.mem_cons.1 hc with rfl | hc
    · exact ⟨0, Nat.succ_pos n, by simp [interp]⟩
    · obtain ⟨k, hk, hck⟩ := ih (offset + i) c hc
      refine ⟨k + 1, Nat.succ_lt_succ hk, ?_⟩
      rw [hck]
      congr 1
      push_cast
      ring

/-- Each iteration of the sampling loop runs with `offset ≤ seg_len` (the
loop guard), and only for a positive interval. -/
theorem sampleCount_le (i s o : ℚ) (k : ℕ) (hk : k < sampleCount i s o) :
    0 < i ∧ o + k * i ≤ s := by
  rw [sampleCount] at hk
  by_cases hg : 0 < i ∧ o ≤ s
  · rw [if_pos hg] at hk
    refine ⟨hg.1, ?_⟩
    have hk' : (k : ℤ) < ⌊(s - o) / i⌋ + 1 := Int.lt_toNat.1 hk
    have hkle : (k : ℤ) ≤ ⌊(s - o) / i⌋ := by omega
    have hkq : (k : ℚ) ≤ (s - o) / i := by
      have := Int.le_floor.1 hkle
      push_cast at this
      exact this
    have : (k : ℚ) * i ≤ s - o := (le_div_iff₀ hg.1).1 hkq
    linarith
  · rw [if_neg hg] at hk
    exact absurd hk (Nat.not_lt_zero k)

/-- After the loop exits, the final offset strictly exceeds `seg_len`
(for a positive interval), so the carried-over remaining distance is
positive. -/
theorem sampleCount_exit (i s o : ℚ) (hi : 0 < i) :
    s < o + (sampleCount i s o : ℚ) * i := by
  rw [sampleCount]
  by_cases hg : 0 < i ∧ o ≤ s
  · rw [if_pos hg]
    have hfl : (0:ℤ) ≤ ⌊(s - o) / i⌋ :=
      Int.floor_nonneg.2 (div_nonneg (by linarith [hg.2]) (le_of_lt hi))
    have hcast : ((⌊(s - o) / i⌋ + 1).toNat : ℚ) = (⌊(s - o) / i⌋ : ℚ) + 1 := by
      have : ((⌊(s - o) / i⌋ + 1).toNat : ℤ) = ⌊(s - o) / i⌋ + 1 :=
        Int.toNat_of_nonneg (by omega)
      exact_mod_cast congrArg (fun z : ℤ => (z : ℚ)) this
    rw [hcast]
    have hlt : (s - o) / i < (⌊(s - o) / i⌋ : ℚ) + 1 := Int.lt_floor_add_one _
    have := (div_lt_iff₀ hi).1 hlt
    linarith
  · rw [if_neg hg]
    push_neg at hg
    have := hg hi
    push_cast
    linarith

/-- Invariant of `sample_along`'s fold over the linestring's segments:
any property `P` that holds of the initial samples and of every loop-emitted
interpolated point (parameter in `(0,1]`, non-degenerate segment) holds of
all accumulated samples; moreover the carried offset stays positive. -/
theorem sampleFold_invariant (dist : Coord → Coord → ℚ) (i : ℚ)
    (P : Coord → Prop) :
    ∀ (L : List (Coord × Coord)) (st : List Coord × ℚ),
      (∀ l ∈ L, ∀ t : ℚ, 0 < t → t ≤ 1 → ¬ dist l.1 l.2 < eps →
        P (interp l.1 l.2 t)) →
      (∀ c ∈ st.1, P c) → (0 < i → 0 < st.2) →
      (∀ c ∈ (L.foldl (sampleStep dist i) st).1, P c) ∧
        (0 < i → 0 < (L.foldl (sampleStep dist i) st).2) := by
  intro L
  induction L with
  | nil => intro st _ h1 h2; exact ⟨h1, h2⟩
  | cons l rest ih =>
    intro st hP h1 h2
    rw [List.foldl_cons]
    refine ih _ (fun l' hl' => hP l' (List.mem_cons_of_mem _ hl')) ?_ ?_
    · intro c hc
      rw [sampleStep] at hc
      by_cases hseg : dist l.1 l.2 < eps
      · rw [if_pos hseg] at hc
        exact h1 c hc
      · rw [if_neg hseg] at hc
        have hseg_pos : 0 < dist l.1 l.2 := lt_of_lt_of_le eps_pos
          (le_of_not_lt hseg)
        rcases List.mem_append.1 hc with hc | hc
        · exact h1 c hc
        · obtain ⟨k, hk, hck⟩ := sampleSteps_fst_mem i (dist l.1 l.2)
            l.1 l.2 _ st.2 c hc
          obtain ⟨hi, hle⟩ := sampleCount_le i (dist l.1 l.2) st.2 k hk
          have hst2 : 0 < st.2 := h2 hi
          have hnum : 0 < st.2 + (k : ℚ) * i :=
            add_pos_of_pos_of_nonneg hst2
              (mul_nonneg (Nat.cast_nonneg k) (le_of_lt hi))
          rw [hck]
          refine hP l (List.mem_cons_self _ _) _ ?_ ?_ hseg
          · exact div_pos hnum hseg_pos
          · exact (div_le_one hseg_pos).2 hle
    · intro hi
      rw [sampleStep]
      by_cases hseg : dist l.1 l.2 < eps
      · rw [if_pos hseg]
        exact h2 hi
      · rw [if_neg hseg]
        show 0 < (sampleLoop i (dist l.1 l.2) l.1 l.2 st.2).2 - dist l.1 l.2
        rw [sampleLoop, sampleSteps_snd]
        have := sampleCount_exit i (dist l.1 l.2) st.2 hi
        linarith

/-- Every sample produced by `sample_along` either lies (with planar
point-to-segment distance zero) on one of the linestring's own segments, or
is the linestring's final vertex. -/
theorem sample_along_mem_good_or_last (dist : Coord → Coord → ℚ)
    (hz : ∀ c, dist c c = 0) (ls : List Coord) (i : ℚ) :
    ∀ c ∈ sample_along dist ls i,
      (∃ ab ∈ lines ls, haversine_point_to_segment dist c ab.1 ab.2 = 0) ∨
        ls.getLast? = some c := by
  intro c hc
  rw [sample_along] at hc
  by_cases hlen : ls.length < 2
  · rw [if_pos hlen] at hc
    cases ls with
    | nil => exact absurd hc (List.not_mem_nil c)
    | cons p tail =>
      cases tail with
      | nil =>
        rcases List.mem_singleton.1 hc with rfl
        exact Or.inr rfl
      | cons q tail2 => simp at hlen; omega
  · rw [if_neg hlen] at hc
    obtain ⟨c0, c1, rest, rfl⟩ : ∃ c0 c1 rest, ls = c0 :: c1 :: rest := by
      cases ls with
      | nil => exact absurd (by simp) hlen
      | cons c0 tail =>
        cases tail with
        | nil => exact absurd (by simp) hlen
        | cons c1 rest => exact ⟨c0, c1, rest, rfl⟩
    have hinit : ∀ c' ∈ ((c0 :: c1 :: rest).take 1, i).1,
        (∃ ab ∈ lines (c0 :: c1 :: rest),
          haversine_point_to_segment dist c' ab.1 ab.2 = 0) ∨
          (c0 :: c1 :: rest).getLast? = some c' := by
      intro c' hc'
      simp only [List.take_succ_cons, List.take_zero,
        List.mem_singleton] at hc'
      rw [hc']
      refine Or.inl ⟨(c0, c1), ?_, hpts_start dist hz c0 c1⟩
      show (c0, c1) ∈ lines (c0 :: c1 :: rest)
      rw [lines]
      exact List.mem_cons_self _ _
    have hfold := sampleFold_invariant dist i
      (fun c => (∃ ab ∈ lines (c0 :: c1 :: rest),
        haversine_point_to_segment dist c ab.1 ab.2 = 0) ∨
        (c0 :: c1 :: rest).getLast? = some c)
      (lines (c0 :: c1 :: rest)) ((c0 :: c1 :: rest).take 1, i)
      (fun l hl t ht0 ht1 hseg =>
        Or.inl ⟨l, hl, hpts_interp dist hz l.1 l.2 t hseg
          (le_of_lt ht0) ht1⟩)
      hinit (fun hi => hi)
    obtain ⟨last, hlast⟩ : ∃ last, (c0 :: c1 :: rest).getLast? =
        some last :=
      ⟨(c0 :: c1 :: rest).getLast (by simp),
        List.getLast?_eq_getLast _ (by simp)⟩
    simp only [hlast] at hc
    by_cases heq : ((lines (c0 :: c1 :: rest)).foldl (sampleStep dist i)
        ((c0 :: c1 :: rest).take 1, i)).1.getLast? = some last
    · rw [if_pos heq] at hc
      exact hfold.1 c hc
    · rw [if_neg heq] at hc
      rcases List.mem_append.1 hc with hc | hc
      · exact hfold.1 c hc
      · rcases List.mem_singleton.1 hc with rfl
        exact Or.inr hlast

/-- If some stored segment realizes point-to-segment distance zero for a
query point, that point's assigned sample distance is zero (the minimizer
can only do at least as well, and the key is a square). -/
theorem sampleDistance_eq_zero (dist : Coord → Coord → ℚ)
    (index : List IndexedSegment) (c : Coord)
    (hgood : ∃ seg ∈ index,
      haversine_point_to_segment dist c seg.start seg.stop = 0) :
    sampleDistance dist index c = 0 := by
  obtain ⟨seg0, hseg0, hzero⟩ := hgood
  have hne : index ≠ [] := by
    rintro rfl
    exact absurd hseg0 (List.not_mem_nil _)
  obtain ⟨r, hr, _, hall⟩ := nearestNeighbor_min dist index c hne
  have h2 := hall seg0 hseg0
  simp only [distance_2, hzero, mul_zero] at h2
  have hr0 : haversine_point_to_segment dist c r.start r.stop = 0 :=
    mul_self_eq_zero.1 (le_antisymm h2 (mul_self_nonneg _))
  simp only [sampleDistance, hr]
  exact hr0

theorem lineStringLength_cons_cons (dist : Coord → Coord → ℚ)
    (a b : Coord) (t : List Coord) :
    lineStringLength dist (a :: b :: t) =
      dist a b + lineStringLength dist (b :: t) := by
  simp [lineStringLength, lines]

/-- A linestring all of whose vertices coincide has zero length (for a
metric vanishing on the diagonal). -/
theorem lineStringLength_const (dist : Coord → Coord → ℚ)
    (hz : ∀ c, dist c c = 0) (r : Coord) :
    ∀ l : List Coord, (∀ a ∈ l, a = r) → lineStringLength dist l = 0 := by
  intro l
  induction l with
  | nil => intro _; simp [lineStringLength, lines]
  | cons a rest ih =>
    intro h
    cases rest with
    | nil => simp [lineStringLength, lines]
    | cons b t =>
      have hrest := ih (fun a' ha' => h a' (List.mem_cons_of_mem _ ha'))
      rw [lineStringLength_cons_cons, hrest, add_zero,
        h a (List.mem_cons_self _ _),
        h b (List.mem_cons_of_mem _ (List.mem_cons_self _ _)), hz]

/-! ### Division-guard instrumentation

Checked variants of the three functions of `compare.rs` that divide:
every division goes through `checkedDiv`, which fails (`none`) on a zero
divisor.  Proving the checked variant equal to `some` of the original shows
that no division ever runs with a zero divisor — the rational-model analogue
of "no division producing NaN/Inf". -/

/-- Division that refuses a zero divisor. -/
def checkedDiv (a b : ℚ) : Option ℚ :=
  if b = 0 then none else some (a / b)

theorem checkedDiv_eq_some (a b : ℚ) (hb : b ≠ 0) :
    checkedDiv a b = some (a / b) := by
  rw [checkedDiv, if_neg hb]

/-- `haversine_point_to_segment` with its projection division checked. -/
def haversine_point_to_segment_checked (dist : Coord → Coord → ℚ)
    (point seg_start seg_end : Coord) : Option ℚ :=
  let ab_len := dist seg_start seg_end
  if ab_len < eps then some (dist point seg_start)
  else
    let dx := seg_end.x - seg_start.x
    let dy := seg_end.y - seg_start.y
    (checkedDiv ((point.x - seg_start.x) * dx + (point.y - seg_start.y) * dy)
        (dx * dx + dy * dy)).map
      (fun t =>
        let t' := min (max t 0) 1
        dist point ⟨seg_start.x + t' * dx, seg_start.y + t' * dy⟩)

/-- The sampling-loop iterations with the `offset / seg_len` division
checked. -/
def sampleSteps_checked (interval_m seg_len : ℚ) (a b : Coord) :
    ℚ → ℕ → Option (List Coord × ℚ)
  | offset, 0 => some ([], offset)
  | offset, n + 1 =>
    match checkedDiv offset seg_len with
    | none => none
    | some t =>
      match sampleSteps_checked interval_m seg_len a b
          (offset + interval_m) n with
      | none => none
      | some rest =>
        some (⟨a.x + t * (b.x - a.x), a.y + t * (b.y - a.y)⟩ :: rest.1,
          rest.2)

/-- `sample_along`'s fold with checked divisions. -/
def sampleFold_checked (dist : Coord → Coord → ℚ) (interval_m : ℚ) :
    List (Coord × Coord) → List Coord × ℚ → Option (List Coord × ℚ)
  | [], st => some st
  | l :: rest, st =>
    let seg_len := dist l.1 l.2
    if seg_len < eps then sampleFold_checked dist interval_m rest st
    else
      match sampleSteps_checked interval_m seg_len l.1 l.2 st.2
          (sampleCount interval_m seg_len st.2) with
      | none => none
      | some res =>
        sampleFold_checked dist interval_m rest
          (st.1 ++ res.1, res.2 - seg_len)

/-- `sample_along` with checked divisions. -/
def sample_along_checked (dist : Coord → Coord → ℚ) (ls : List Coord)
    (interval_m : ℚ) : Option (List Coord) :=
  if ls.length < 2 then some ls
  else
    match sampleFold_checked dist interval_m (lines ls)
        (ls.take 1, interval_m) with
    | none => none
    | some r =>
      some
        (match ls.getLast? with
        | none => r.1
        | some last =>
          if r.1.getLast? = some last then r.1 else r.1 ++ [last])

/-- `emit_divergence` with the mean-distance division checked. -/
def emit_divergence_checked (dist : Coord → Coord → ℚ)
    (run : List (Coord × ℚ)) (section_name : String) (min_length_m : ℚ) :
    Option (Option Divergence) :=
  let coords := run.map (fun cd => cd.1)
  let length := lineStringLength dist coords
  if length < min_length_m then some none
  else
    (checkedDiv ((run.map (fun cd => cd.2)).sum) (run.length : ℚ)).map
      (fun mean =>
        some
          { pcta_segment := coords
            section_name := section_name
            max_distance_m := (run.map (fun cd => cd.2)).foldl max 0
            mean_distance_m := mean
            length_m := length })

theorem hpts_checked_eq (dist : Coord → Coord → ℚ)
    (hz : ∀ c, dist c c = 0) (point seg_start seg_end : Coord) :
    haversine_point_to_segment_checked dist point seg_start seg_end =
      some (haversine_point_to_segment dist point seg_start seg_end) := by
  by_cases hab : dist seg_start seg_end < eps
  · rw [haversine_point_to_segment_checked, if_pos hab,
      haversine_point_to_segment, if_pos hab]
  · have hD : (seg_end.x - seg_start.x) * (seg_end.x - seg_start.x) +
        (seg_end.y - seg_start.y) * (seg_end.y - seg_start.y) ≠ 0 := by
      intro hDeq
      have hx2 : (0:ℚ) ≤ (seg_end.x - seg_start.x) *
          (seg_end.x - seg_start.x) := mul_self_nonneg _
      have hy2 : (0:ℚ) ≤ (seg_end.y - seg_start.y) *
          (seg_end.y - seg_start.y) := mul_self_nonneg _
      have hx := mul_self_eq_zero.1
        ((add_eq_zero_iff_of_nonneg hx2 hy2).1 hDeq).1
      have hy := mul_self_eq_zero.1
        ((add_eq_zero_iff_of_nonneg hx2 hy2).1 hDeq).2
      have hba : seg_end = seg_start := by
        cases seg_start; cases seg_end
        simp only [Coord.mk.injEq]
        constructor
        · linarith [hx]
        · linarith [hy]
      rw [hba, hz] at hab
      exact hab eps_pos
    rw [haversine_point_to_segment_checked, if_neg hab,
      haversine_point_to_segment, if_neg hab]
    simp only [checkedDiv, hD, if_false, ite_false]
    rfl

theorem sampleSteps_checked_eq (interval_m seg_len : ℚ) (a b : Coord)
    (hs : seg_len ≠ 0) :
    ∀ (n : ℕ) (offset : ℚ),
      sampleSteps_checked interval_m seg_len a b offset n =
        some (sampleSteps interval_m seg_len a b offset n) := by
  intro n
  induction n with
  | zero => intro offset; rfl
  | succ n ih =>
    intro offset
    rw [sampleSteps_checked, checkedDiv_eq_some _ _ hs, ih, sampleSteps]

theorem sampleFold_checked_eq (dist : Coord → Coord → ℚ) (interval_m : ℚ) :
    ∀ (L : List (Coord × Coord)) (st : List Coord × ℚ),
      sampleFold_checked dist interval_m L st =
        some (L.foldl (sampleStep dist interval_m) st) := by
  intro L
  induction L with
  | nil => intro st; rfl
  | cons l rest ih =>
    intro st
    rw [List.foldl_cons, sampleFold_checked, sampleStep]
    by_cases hseg : dist l.1 l.2 < eps
    · rw [if_pos hseg, if_pos hseg, ih]
    · have hs : dist l.1 l.2 ≠ 0 :=
        ne_of_gt (lt_of_lt_of_le eps_pos (le_of_not_lt hseg))
      rw [if_neg hseg, if_neg hseg,
        sampleSteps_checked_eq interval_m _ l.1 l.2 hs]
      show sampleFold_checked dist interval_m rest
        (st.1 ++ (sampleLoop interval_m (dist l.1 l.2) l.1 l.2 st.2).1,
          (sampleLoop interval_m (dist l.1 l.2) l.1 l.2 st.2).2 -
            dist l.1 l.2) = _
      exact ih _

/-- The checked sampler agrees with the sampler: every division performed
by `sample_along` has a nonzero divisor (the `seg_len < 1e-10` guard). -/
theorem sample_along_checked_eq (dist : Coord → Coord → ℚ)
    (ls : List Coord) (interval_m : ℚ) :
    sample_along_checked dist ls interval_m =
      some (sample_along dist ls interval_m) := by
  rw [sample_along_checked, sample_along]
  by_cases hlen : ls.length < 2
  · rw [if_pos hlen, if_pos hlen]
  · rw [if_neg hlen, if_neg hlen, sampleFold_checked_eq]

/-- The checked `emit_divergence` agrees with `emit_divergence` on every
nonempty run: the mean-distance division has a nonzero divisor. -/
theorem emit_divergence_checked_eq (dist : Coord → Coord → ℚ)
    (run : List (Coord × ℚ)) (section_name : String) (min_length_m : ℚ)
    (hne : run ≠ []) :
    emit_divergence_checked dist run section_name min_length_m =
      some (emit_divergence dist run section_name min_length_m) := by
  have hlen : (run.length : ℚ) ≠ 0 := by
    simp only [ne_eq, Nat.cast_eq_zero, List.length_eq_zero]
    exact hne
  rw [emit_divergence_checked, emit_divergence]
  by_cases hl : lineStringLength dist (run.map (fun cd => cd.1)) <
      min_length_m
  · rw [if_pos hl, if_pos hl]
  · rw [if_neg hl, if_neg hl, checkedDiv_eq_some _ _ hlen]
    rfl

/-! ### Characterizations of `emit_divergence` and sampler head/last -/

theorem emit_divergence_eq_none (dist : Coord → Coord → ℚ)
    (run : List (Coord × ℚ)) (name : String) (ml : ℚ)
    (h : lineStringLength dist (run.map (fun cd => cd.1)) < ml) :
    emit_divergence dist run name ml = none := by
  simp only [emit_divergence]
  rw [if_pos h]

theorem emit_divergence_eq_some (dist : Coord → Coord → ℚ)
    (run : List (Coord × ℚ)) (name : String) (ml : ℚ)
    (h : ¬ lineStringLength dist (run.map (fun cd => cd.1)) < ml) :
    emit_divergence dist run name ml = some
      { pcta_segment := run.map (fun cd => cd.1)
        section_name := name
        max_distance_m := (run.map (fun cd => cd.2)).foldl max 0
        mean_distance_m :=
          (run.map (fun cd => cd.2)).sum / (run.length : ℚ)
        length_m := lineStringLength dist (run.map (fun cd => cd.1)) } := by
  simp only [emit_divergence]
  rw [if_neg h]

/-- `sampleStep` written without `let` bindings, for rewriting. -/
theorem sampleStep_eq (dist : Coord → Coord → ℚ) (i : ℚ)
    (st : List Coord × ℚ) (l : Coord × Coord) :
    sampleStep dist i st l =
      if dist l.1 l.2 < eps then st
      else
        (st.1 ++ (sampleLoop i (dist l.1 l.2) l.1 l.2 st.2).1,
          (sampleLoop i (dist l.1 l.2) l.1 l.2 st.2).2 - dist l.1 l.2) :=
  rfl

theorem head?_append_left {α : Type} (l l' : List α) (h : l ≠ []) :
    (l ++ l').head? = l.head? := by
  cases l with
  | nil => exact absurd rfl h
  | cons a t => rfl

/-- The fold over segments only ever appends samples, so it preserves the
head (the first vertex) and nonemptiness of the accumulated list. -/
theorem sampleFold_head (dist : Coord → Coord → ℚ) (i : ℚ) :
    ∀ (L : List (Coord × Coord)) (st : List Coord × ℚ), st.1 ≠ [] →
      (L.foldl (sampleStep dist i) st).1.head? = st.1.head? ∧
        (L.foldl (sampleStep dist i) st).1 ≠ [] := by
  intro L
  induction L with
  | nil => intro st h; exact ⟨rfl, h⟩
  | cons l rest ih =>
    intro st h
    rw [List.foldl_cons, sampleStep_eq]
    by_cases hseg : dist l.1 l.2 < eps
    · rw [if_pos hseg]
      exact ih st h
    · rw [if_neg hseg]
      have h1 : st.1 ++ (sampleLoop i (dist l.1 l.2) l.1 l.2 st.2).1 ≠ [] :=
        fun habs => h (List.append_eq_nil.1 habs).1

      refine ⟨?_, (ih _ h1).2⟩
      rw [(ih _ h1).1]
      exact head?_append_left _ _ h

/-- The closest point of the projection step, written from the spec's
words: `t = dot(p-a, b-a) / dot(b-a, b-a)` clamped to `[0, 1]`,
`c = a + t*(b-a)` in coordinate space. -/
def closestPointSpec (p a b : Coord) : Coord :=
  let dx := b.x - a.x
  let dy := b.y - a.y
  let t := ((p.x - a.x) * dx + (p.y - a.y) * dy) / (dx * dx + dy * dy)
  let t' := min (max t 0) 1
  ⟨a.x + t' * dx, a.y + t' * dy⟩

/-! ### Claim theorems -/

/-- C1: the divergence detector finalizes exactly the maximal contiguous
runs of consecutive samples whose distance strictly exceeds the threshold —
a run opens at the first divergent sample after a non-divergent position,
closes at the first subsequent non-divergent sample or at end-of-sequence
(the sentinel iteration), and no pending open run is left unfinalized. -/
theorem claim_C1_detector_maximal_runs (threshold_m : ℚ)
    (distances : List (Coord × ℚ)) :
    detectRuns threshold_m distances none =
      maximalRunsSpec (fun x => decide (threshold_m < x.2)) distances :=
  detectRuns_none_eq threshold_m distances

/-- C2: a finalized run is emitted iff its sub-polyline length is at least
`min_length` (the boundary case of exact equality is emitted), and the
emitted record carries the max and mean distance over the run's samples. -/
theorem claim_C2_emit_iff_min_length (dist : Coord → Coord → ℚ)
    (run : List (Coord × ℚ)) (name : String) (min_length_m : ℚ) :
    (lineStringLength dist (run.map (fun cd => cd.1)) < min_length_m →
      emit_divergence dist run name min_length_m = none) ∧
    (min_length_m ≤ lineStringLength dist (run.map (fun cd => cd.1)) →
      emit_divergence dist run name min_length_m = some
        { pcta_segment := run.map (fun cd => cd.1)
          section_name := name
          max_distance_m := (run.map (fun cd => cd.2)).foldl max 0
          mean_distance_m :=
            (run.map (fun cd => cd.2)).sum / (run.length : ℚ)
          length_m := lineStringLength dist (run.map (fun cd => cd.1)) }) :=
  ⟨emit_divergence_eq_none dist run name min_length_m,
    fun h => emit_divergence_eq_some dist run name min_length_m
      (not_lt.2 h)⟩

/-- Witness for C2 at a concrete run whose length exactly equals
`min_length` (the boundary case): the record is emitted. -/
theorem claim_C2_witness :
    (1:ℚ) ≤ lineStringLength l1dist
      (([((⟨0,0⟩ : Coord), (5:ℚ)), (⟨1,0⟩, 7)]).map (fun cd => cd.1)) ∧
    emit_divergence l1dist [((⟨0,0⟩ : Coord), (5:ℚ)), (⟨1,0⟩, 7)] "S" 1 =
      some
        { pcta_segment :=
            ([((⟨0,0⟩ : Coord), (5:ℚ)), (⟨1,0⟩, 7)]).map (fun cd => cd.1)
          section_name := "S"
          max_distance_m :=
            (([((⟨0,0⟩ : Coord), (5:ℚ)), (⟨1,0⟩, 7)]).map
              (fun cd => cd.2)).foldl max 0
          mean_distance_m :=
            (([((⟨0,0⟩ : Coord), (5:ℚ)), (⟨1,0⟩, 7)]).map
              (fun cd => cd.2)).sum / (2 : ℚ)
          length_m := lineStringLength l1dist
            (([((⟨0,0⟩ : Coord), (5:ℚ)), (⟨1,0⟩, 7)]).map
              (fun cd => cd.1)) } := by
  have h : (1:ℚ) ≤ lineStringLength l1dist
      (([((⟨0,0⟩ : Coord), (5:ℚ)), (⟨1,0⟩, 7)]).map (fun cd => cd.1)) := by
    norm_num [lineStringLength, lines, l1dist]
  exact ⟨h, (claim_C2_emit_iff_min_length l1dist
    [((⟨0,0⟩ : Coord), (5:ℚ)), (⟨1,0⟩, 7)] "S" 1).2 h⟩

/-- C4: `nearest` returns `None` iff the index stores no segments; on an
empty index every sample is assigned the unbounded distance `f64::MAX`, so
every sample is divergent for any threshold below `f64::MAX`. -/
theorem claim_C4_empty_index (dist : Coord → Coord → ℚ)
    (index : List IndexedSegment) (q c : Coord) (threshold_m : ℚ) :
    (nearestNeighbor dist index q = none ↔ index = []) ∧
    sampleDistance dist [] c = fMAX ∧
    (threshold_m < fMAX → threshold_m < sampleDistance dist [] c) :=
  ⟨nearestNeighbor_eq_none_iff dist index q, rfl, fun h => h⟩

/-- Witness for C4 at a concrete threshold below `f64::MAX`. -/
theorem claim_C4_witness :
    (0:ℚ) < fMAX ∧ (0:ℚ) < sampleDistance l1dist [] ⟨0,0⟩ := by
  have h : (0:ℚ) < fMAX := by norm_num [fMAX]
  exact ⟨h, (claim_C4_empty_index l1dist [] ⟨0,0⟩ ⟨0,0⟩ 0).2.2 h⟩

/-- C5: for a segment shorter than `1e-10` the point-to-segment distance is
the distance to the start vertex; otherwise it is the distance to the
clamped planar projection of the point onto the segment. -/
theorem claim_C5_point_to_segment (dist : Coord → Coord → ℚ)
    (p a b : Coord) :
    (dist a b < eps →
      haversine_point_to_segment dist p a b = dist p a) ∧
    (¬ dist a b < eps →
      haversine_point_to_segment dist p a b =
        dist p (closestPointSpec p a b)) :=
  ⟨hpts_degenerate dist p a b, fun h => hpts_else dist p a b h⟩

/-- Witness for C5: both branches exercised at concrete inputs. -/
theorem claim_C5_witness :
    (l1dist ⟨0,0⟩ ⟨0,0⟩ < eps ∧
      haversine_point_to_segment l1dist ⟨1,1⟩ ⟨0,0⟩ ⟨0,0⟩ =
        l1dist ⟨1,1⟩ ⟨0,0⟩) ∧
    (¬ l1dist ⟨0,0⟩ ⟨1,0⟩ < eps ∧
      haversine_point_to_segment l1dist ⟨1/2,1⟩ ⟨0,0⟩ ⟨1,0⟩ =
        l1dist ⟨1/2,1⟩ (closestPointSpec ⟨1/2,1⟩ ⟨0,0⟩ ⟨1,0⟩)) := by
  have h1 : l1dist ⟨0,0⟩ ⟨0,0⟩ < eps := by norm_num [l1dist, eps]
  have h2 : ¬ l1dist ⟨0,0⟩ ⟨1,0⟩ < eps := by norm_num [l1dist, eps]
  exact ⟨⟨h1, (claim_C5_point_to_segment l1dist ⟨1,1⟩ ⟨0,0⟩ ⟨0,0⟩).1 h1⟩,
    ⟨h2, (claim_C5_point_to_segment l1dist ⟨1/2,1⟩ ⟨0,0⟩ ⟨1,0⟩).2 h2⟩⟩

/-- C6: the R-tree ordering key is the square of the true point-to-segment
distance, and squaring is monotone on nonnegative distances, so ranking by
the key agrees with ranking by the true distance. -/
theorem claim_C6_squared_key_monotone (dist : Coord → Coord → ℚ)
    (seg : IndexedSegment) (point : Coord) (d1 d2 : ℚ)
    (h1 : 0 ≤ d1) (h2 : 0 ≤ d2) :
    distance_2 dist seg point =
      haversine_point_to_segment dist point seg.start seg.stop *
        haversine_point_to_segment dist point seg.start seg.stop ∧
    (d1 ≤ d2 ↔ d1 * d1 ≤ d2 * d2) := by
  refine ⟨rfl, ⟨fun h => mul_self_le_mul_self h1 h, fun h => ?_⟩⟩
  by_contra hlt
  push_neg at hlt
  exact absurd h (not_le.2 (mul_self_lt_mul_self h2 hlt))

/-- Witness for C6 at concrete nonnegative distances. -/
theorem claim_C6_witness :
    (0:ℚ) ≤ 1 ∧ (0:ℚ) ≤ 2 ∧
    (distance_2 l1dist ⟨⟨0,0⟩, ⟨1,0⟩⟩ ⟨0,1⟩ =
      haversine_point_to_segment l1dist ⟨0,1⟩ ⟨0,0⟩ ⟨1,0⟩ *
        haversine_point_to_segment l1dist ⟨0,1⟩ ⟨0,0⟩ ⟨1,0⟩ ∧
      ((1:ℚ) ≤ 2 ↔ (1:ℚ) * 1 ≤ 2 * 2)) := by
  refine ⟨by norm_num, by norm_num, ?_⟩
  exact claim_C6_squared_key_monotone l1dist ⟨⟨0,0⟩, ⟨1,0⟩⟩ ⟨0,1⟩ 1 2
    (by norm_num) (by norm_num)

/-- C7: no division in the core runs on a zero divisor — the projection
divisor is nonzero whenever the `1e-10` segment-length check passes, the
sampler divides only by segment lengths of at least `1e-10`, and the mean
divides only by a nonempty run's length (the runs produced by the detector
are always nonempty).  The checked variants, in which every division fails
on a zero divisor, agree with the originals. -/
theorem claim_C7_no_unguarded_division (dist : Coord → Coord → ℚ)
    (hz : ∀ c, dist c c = 0) (p a b : Coord) (ls : List Coord) (i : ℚ)
    (run : List (Coord × ℚ)) (name : String) (ml th : ℚ)
    (xs : List (Coord × ℚ)) :
    haversine_point_to_segment_checked dist p a b =
      some (haversine_point_to_segment dist p a b) ∧
    sample_along_checked dist ls i = some (sample_along dist ls i) ∧
    (run ≠ [] → emit_divergence_checked dist run name ml =
      some (emit_divergence dist run name ml)) ∧
    (∀ r ∈ detectRuns th xs none, r ≠ []) :=
  ⟨hpts_checked_eq dist hz p a b, sample_along_checked_eq dist ls i,
    emit_divergence_checked_eq dist run name ml,
    fun r hr => (detectRuns_mem th xs r hr).1⟩

/-- Witness for C7 at the concrete L1 metric and a concrete nonempty
run. -/
theorem claim_C7_witness :
    (∀ c : Coord, l1dist c c = 0) ∧
    sample_along_checked l1dist [⟨0,0⟩, ⟨1,0⟩] 1 =
      some (sample_along l1dist [⟨0,0⟩, ⟨1,0⟩] 1) ∧
    ([((⟨0,0⟩ : Coord), (1:ℚ))] ≠ ([] : List (Coord × ℚ)) ∧
      emit_divergence_checked l1dist [((⟨0,0⟩ : Coord), (1:ℚ))] "S" 0 =
        some (emit_divergence l1dist [((⟨0,0⟩ : Coord), (1:ℚ))] "S" 0)) := by
  have hz : ∀ c : Coord, l1dist c c = 0 := by
    intro c
    simp [l1dist]
  have hne : [((⟨0,0⟩ : Coord), (1:ℚ))] ≠ ([] : List (Coord × ℚ)) := by
    simp
  exact ⟨hz,
    (claim_C7_no_unguarded_division l1dist hz ⟨0,0⟩ ⟨0,0⟩ ⟨0,0⟩
      [⟨0,0⟩, ⟨1,0⟩] 1 [((⟨0,0⟩ : Coord), (1:ℚ))] "S" 0 0 []).2.1,
    hne,
    (claim_C7_no_unguarded_division l1dist hz ⟨0,0⟩ ⟨0,0⟩ ⟨0,0⟩
      [⟨0,0⟩, ⟨1,0⟩] 1 [((⟨0,0⟩ : Coord), (1:ℚ))] "S" 0 0 []).2.2.1 hne⟩

/-- C3 counterexample: the final vertex need not be included exactly once.
On the backtracking polyline `(0,0), (2,0), (1,0)` with interval 1, the
sampler emits the coordinate `(1,0)` both as an interior interpolated
sample (on the first segment) and as the final vertex, so the final vertex
occurs twice in the output. -/
theorem claim_C3_counterexample :
    ([(⟨0,0⟩ : Coord), ⟨2,0⟩, ⟨1,0⟩].getLast? = some ⟨1,0⟩) ∧
    (sample_along l1dist [⟨0,0⟩, ⟨2,0⟩, ⟨1,0⟩] 1).count ⟨1,0⟩ = 2 := by
  constructor
  · rfl
  · norm_num [sample_along, lines, sampleStep, sampleLoop, sampleSteps,
      sampleCount, eps, l1dist, List.count_cons]

/-- C3 (amended): for a polyline with at least 2 points, `sample_along`
returns a sequence whose first element is the polyline's first vertex and
whose last element is the polyline's final vertex (the final vertex is not
appended a second time at the tail, though it may also occur earlier in the
sequence); a polyline with 0 or 1 points is returned unchanged. -/
theorem claim_C3_first_last (dist : Coord → Coord → ℚ) (ls : List Coord)
    (interval_m : ℚ) :
    (2 ≤ ls.length →
      (sample_along dist ls interval_m).head? = ls.head? ∧
      (sample_along dist ls interval_m).getLast? = ls.getLast?) ∧
    (ls.length < 2 → sample_along dist ls interval_m = ls) := by
  constructor
  · intro hlen
    have hnl : ¬ ls.length < 2 := not_lt.2 hlen
    rw [sample_along, if_neg hnl]
    obtain ⟨c0, c1, rest, rfl⟩ : ∃ c0 c1 rest, ls = c0 :: c1 :: rest := by
      cases ls with
      | nil => exact absurd hlen (by simp)
      | cons c0 tail =>
        cases tail with
        | nil => exact absurd hlen (by simp)
        | cons c1 rest => exact ⟨c0, c1, rest, rfl⟩
    obtain ⟨last, hlast⟩ : ∃ last, (c0 :: c1 :: rest).getLast? =
        some last :=
      ⟨(c0 :: c1 :: rest).getLast (by simp),
        List.getLast?_eq_getLast _ (by simp)⟩
    have hF := sampleFold_head dist interval_m (lines (c0 :: c1 :: rest))
      ((c0 :: c1 :: rest).take 1, interval_m) (by simp)
    simp only [hlast]
    by_cases heq : ((lines (c0 :: c1 :: rest)).foldl
        (sampleStep dist interval_m)
        ((c0 :: c1 :: rest).take 1, interval_m)).1.getLast? = some last
    · rw [if_pos heq]
      refine ⟨?_, by rw [heq]⟩
      rw [hF.1]
      simp
    · rw [if_neg heq]
      refine ⟨?_, ?_⟩
      · rw [head?_append_left _ _ hF.2, hF.1]
        simp
      · rw [List.getLast?_concat]
  · intro hlen
    rw [sample_along, if_pos hlen]

/-- Witness for the amended C3 at a concrete 3-vertex polyline (and the
0/1-point branch at a singleton). -/
theorem claim_C3_witness :
    (2 ≤ ([(⟨0,0⟩ : Coord), ⟨2,0⟩, ⟨1,0⟩] : List Coord).length ∧
      (sample_along l1dist [⟨0,0⟩, ⟨2,0⟩, ⟨1,0⟩] 1).head? =
        ([(⟨0,0⟩ : Coord), ⟨2,0⟩, ⟨1,0⟩] : List Coord).head? ∧
      (sample_along l1dist [⟨0,0⟩, ⟨2,0⟩, ⟨1,0⟩] 1).getLast? =
        ([(⟨0,0⟩ : Coord), ⟨2,0⟩, ⟨1,0⟩] : List Coord).getLast?) ∧
    (([(⟨0,0⟩ : Coord)] : List Coord).length < 2 ∧
      sample_along l1dist [⟨0,0⟩] 1 = [⟨0,0⟩]) := by
  have h2 : 2 ≤ ([(⟨0,0⟩ : Coord), ⟨2,0⟩, ⟨1,0⟩] : List Coord).length := by
    simp
  have h1 : ([(⟨0,0⟩ : Coord)] : List Coord).length < 2 := by simp
  exact ⟨⟨h2, (claim_C3_first_last l1dist [⟨0,0⟩, ⟨2,0⟩, ⟨1,0⟩] 1).1 h2⟩,
    ⟨h1, (claim_C3_first_last l1dist [⟨0,0⟩] 1).2 h1⟩⟩

/-- C9 counterexample: a 1-point polyline is NOT excluded from sampling —
`sample_along` returns its own point, which enters divergence detection;
with an empty index, `threshold = 0` and `min_length = 0` the single-point
polyline even produces a `Divergence` record. -/
theorem claim_C9_counterexample :
    sample_along l1dist [⟨0,0⟩] 1 ≠ [] ∧
    process_linestring l1dist [⟨0,0⟩] "S" [] 0 0 1 ≠ [] := by
  constructor
  · rw [sample_along, if_pos (by simp)]
    simp
  · norm_num [process_linestring, sample_along, sampleDistance,
      nearestNeighbor, detectRuns, emit_divergence, lineStringLength,
      lines, fMAX]
    exact fun h => Option.noConfusion h

/-- C9 (amended): a polyline with fewer than 2 points has zero length, is
returned unchanged by the sampler (so it contributes at most its own
single point as a sample), and — whenever `min_length > 0` — never yields a
`Divergence` record. -/
theorem claim_C9_short_polyline (dist : Coord → Coord → ℚ)
    (ls : List Coord) (name : String) (index : List IndexedSegment)
    (threshold_m min_length_m sample_interval_m : ℚ)
    (hlen : ls.length < 2) (hml : 0 < min_length_m) :
    lineStringLength dist ls = 0 ∧
    sample_along dist ls sample_interval_m = ls ∧
    process_linestring dist ls name index threshold_m min_length_m
      sample_interval_m = [] := by
  have hs : sample_along dist ls sample_interval_m = ls := by
    rw [sample_along, if_pos hlen]
  cases ls with
  | nil =>
    refine ⟨rfl, hs, ?_⟩
    simp only [process_linestring, hs]
    rfl
  | cons p tail =>
    cases tail with
    | nil =>
      refine ⟨rfl, hs, ?_⟩
      simp only [process_linestring, hs]
      rw [if_neg (by simp)]
      simp only [List.map_cons, List.map_nil]
      by_cases hd : threshold_m < sampleDistance dist index p
      · rw [detectRuns, if_pos hd, detectRuns,
          List.filterMap_cons, List.filterMap_nil,
          emit_divergence_eq_none dist _ name _ (by exact hml)]
      · rw [detectRuns, if_neg hd, detectRuns, List.filterMap_nil]
    | cons q tail2 =>
      exact absurd hlen (by simp)

/-- Witness for the amended C9 at a concrete 1-point polyline. -/
theorem claim_C9_witness :
    (([(⟨0,0⟩ : Coord)] : List Coord).length < 2 ∧ (0:ℚ) < 1) ∧
    (lineStringLength l1dist [⟨0,0⟩] = 0 ∧
      sample_along l1dist [⟨0,0⟩] 5 = [⟨0,0⟩] ∧
      process_linestring l1dist [⟨0,0⟩] "S" [] 0 1 5 = []) := by
  have h1 : ([(⟨0,0⟩ : Coord)] : List Coord).length < 2 := by simp
  have h2 : (0:ℚ) < 1 := by norm_num
  exact ⟨⟨h1, h2⟩,
    claim_C9_short_polyline l1dist [⟨0,0⟩] "S" [] 0 1 5 h1 h2⟩

/-- C8 counterexample: with `min_length ≤ 0` the claim fails.  The 1-point
polyline `[(0,0)]`, used identically as the reference section and as the
comparison dataset (whose index is then empty, a single point yielding no
segment), with `threshold = 1 > 0` and `min_length = 0`, produces a
`Divergence` record. -/
theorem claim_C8_counterexample :
    (0:ℚ) < 1 ∧
    find_divergences l1dist [⟨"S", [[⟨0,0⟩]]⟩]
      (build_index [[⟨0,0⟩]]) 1 0 1 ≠ [] := by
  refine ⟨by norm_num, ?_⟩
  norm_num [find_divergences, build_index, process_linestring, sample_along,
    lines, sampleDistance, nearestNeighbor, detectRuns, emit_divergence,
    lineStringLength, fMAX]
  exact fun h => Option.noConfusion h

/-- C8 (amended): for every polyline used identically as a reference
section and as the comparison dataset, every `threshold > 0` AND every
`min_length > 0`, divergence detection yields zero records.  (The metric
hypothesis `dist c c = 0` holds for the haversine distance.) -/
theorem claim_C8_identical_no_divergences (dist : Coord → Coord → ℚ)
    (hz : ∀ c, dist c c = 0) (ls : List Coord) (name : String)
    (threshold_m min_length_m sample_interval_m : ℚ)
    (hth : 0 < threshold_m) (hml : 0 < min_length_m) :
    find_divergences dist [⟨name, [ls]⟩] (build_index [ls])
      threshold_m min_length_m sample_interval_m = [] := by
  rw [find_divergences]
  simp only [List.flatMap_cons, List.flatMap_nil, List.append_nil]
  rw [process_linestring]
  by_cases hemp : (sample_along dist ls sample_interval_m).isEmpty
  · rw [if_pos hemp]
  · rw [if_neg hemp]
    rw [List.filterMap_eq_nil_iff]
    intro run hrun
    obtain ⟨hne, hall⟩ := detectRuns_mem threshold_m _ run hrun
    have hcoord : ∀ x ∈ run, ls.getLast? = some x.1 := by
      intro x hx
      obtain ⟨hdiv, hmem⟩ := hall x hx
      obtain ⟨cx, hcx, rfl⟩ := List.mem_map.1 hmem
      rcases sample_along_mem_good_or_last dist hz ls sample_interval_m
        cx hcx with hgood | hlast
      · obtain ⟨ab, hab, hzero⟩ := hgood
        have hzero' : sampleDistance dist (build_index [ls]) cx = 0 := by
          apply sampleDistance_eq_zero
          refine ⟨⟨ab.1, ab.2⟩, ?_, hzero⟩
          rw [build_index]
          simp only [List.flatMap_cons, List.flatMap_nil, List.append_nil]
          exact List.mem_map.2 ⟨ab, hab, rfl⟩
        rw [hzero'] at hdiv
        exact absurd hdiv (not_lt.2 (le_of_lt hth))
      · exact hlast
    obtain ⟨x0, hx0⟩ := List.exists_mem_of_ne_nil run hne
    have hconst : ∀ a ∈ run.map (fun cd => cd.1), a = x0.1 := by
      intro a ha
      obtain ⟨x, hx, rfl⟩ := List.mem_map.1 ha
      have h1 := hcoord x hx
      have h2 := hcoord x0 hx0
      rw [h1] at h2
      exact Option.some_inj.1 h2
    apply emit_divergence_eq_none
    rw [lineStringLength_const dist hz x0.1 _ hconst]
    exact hml

/-- Witness for the amended C8 at a concrete 3-vertex polyline with
positive threshold and minimum length. -/
theorem claim_C8_witness :
    (∀ c : Coord, l1dist c c = 0) ∧ (0:ℚ) < 10 ∧ (0:ℚ) < 500 ∧
    find_divergences l1dist [⟨"S", [[⟨0,0⟩, ⟨1,0⟩, ⟨2,1⟩]]⟩]
      (build_index [[⟨0,0⟩, ⟨1,0⟩, ⟨2,1⟩]]) 10 500 (1/3) = [] := by
  have hz : ∀ c : Coord, l1dist c c = 0 := by
    intro c
    simp [l1dist]
  exact ⟨hz, by norm_num, by norm_num,
    claim_C8_identical_no_divergences l1dist hz [⟨0,0⟩, ⟨1,0⟩, ⟨2,1⟩] "S"
      10 500 (1/3) (by norm_num) (by norm_num)⟩

/-- C10: every `Divergence` returned by `find_divergences` has
`length_m ≥ min_length`, was built from a nonempty run all of whose sampled
distances strictly exceed the threshold, and consequently its
`max_distance_m` strictly exceeds the threshold. -/
theorem claim_C10_divergence_invariants (dist : Coord → Coord → ℚ)
    (sections : List PctaSection) (index : List IndexedSegment)
    (threshold_m min_length_m sample_interval_m : ℚ) (dv : Divergence)
    (hdv : dv ∈ find_divergences dist sections index threshold_m
      min_length_m sample_interval_m) :
    min_length_m ≤ dv.length_m ∧ threshold_m < dv.max_distance_m ∧
      ∃ run, run ≠ [] ∧ (∀ x ∈ run, threshold_m < x.2) ∧
        emit_divergence dist run dv.section_name min_length_m = some dv := by
  rw [find_divergences] at hdv
  obtain ⟨sec, hsec, hdv⟩ := List.mem_flatMap.1 hdv
  obtain ⟨ls, hls, hdv⟩ := List.mem_flatMap.1 hdv
  rw [process_linestring] at hdv
  by_cases hemp : (sample_along dist ls sample_interval_m).isEmpty
  · rw [if_pos hemp] at hdv
    exact absurd hdv (List.not_mem_nil dv)
  · rw [if_neg hemp] at hdv
    obtain ⟨run, hrun, hemit⟩ := List.mem_filterMap.1 hdv
    obtain ⟨hne, hall⟩ := detectRuns_mem threshold_m _ run hrun
    by_cases hlt : lineStringLength dist (run.map (fun cd => cd.1)) <
        min_length_m
    · rw [emit_divergence_eq_none dist run _ _ hlt] at hemit
      exact absurd hemit (fun h => Option.noConfusion h)
    · rw [emit_divergence_eq_some dist run _ _ hlt] at hemit
      obtain rfl := Option.some_inj.1 hemit
      refine ⟨not_lt.1 hlt, ?_, run, hne,
        fun x hx => (hall x hx).1, ?_⟩
      · obtain ⟨x0, hx0⟩ := List.exists_mem_of_ne_nil run hne
        have hx0d : threshold_m < x0.2 := (hall x0 hx0).1
        have hmem : x0.2 ∈ run.map (fun cd => cd.2) :=
          List.mem_map.2 ⟨x0, hx0, rfl⟩
        exact lt_of_lt_of_le hx0d (mem_le_foldl_max _ 0 x0.2 hmem)
      · exact emit_divergence_eq_some dist run _ _ hlt

/-- Witness for C10 at a concrete run: a 2-vertex reference line 3 units
above the indexed line, threshold 1, minimum length 1. -/
theorem claim_C10_witness :
    (⟨[⟨0,3⟩, ⟨1,3⟩], "S", 3, 3, 1⟩ : Divergence) ∈
      find_divergences l1dist [⟨"S", [[⟨0,3⟩, ⟨1,3⟩]]⟩]
        (build_index [[⟨0,0⟩, ⟨1,0⟩]]) 1 1 2 ∧
    ((1:ℚ) ≤ (⟨[⟨0,3⟩, ⟨1,3⟩], "S", 3, 3, 1⟩ : Divergence).length_m ∧
      (1:ℚ) < (⟨[⟨0,3⟩, ⟨1,3⟩], "S", 3, 3, 1⟩ : Divergence).max_distance_m ∧
      ∃ run, run ≠ [] ∧ (∀ x ∈ run, (1:ℚ) < x.2) ∧
        emit_divergence l1dist run
          (⟨[⟨0,3⟩, ⟨1,3⟩], "S", 3, 3, 1⟩ : Divergence).section_name 1 =
          some ⟨[⟨0,3⟩, ⟨1,3⟩], "S", 3, 3, 1⟩) := by
  have hmem : (⟨[⟨0,3⟩, ⟨1,3⟩], "S", 3, 3, 1⟩ : Divergence) ∈
      find_divergences l1dist [⟨"S", [[⟨0,3⟩, ⟨1,3⟩]]⟩]
        (build_index [[⟨0,0⟩, ⟨1,0⟩]]) 1 1 2 := by
    norm_num [find_divergences, build_index, process_linestring,
      sample_along, lines, sampleDistance, nearestNeighbor, detectRuns,
      emit_divergence, lineStringLength, distance_2,
      haversine_point_to_segment, sampleStep, sampleLoop, sampleSteps,
      sampleCount, eps, l1dist, max_def]
    simp
  exact ⟨hmem, claim_C10_divergence_invariants l1dist
    [⟨"S", [[⟨0,3⟩, ⟨1,3⟩]]⟩] (build_index [[⟨0,0⟩, ⟨1,0⟩]]) 1 1 2
    ⟨[⟨0,3⟩, ⟨1,3⟩], "S", 3, 3, 1⟩ hmem⟩

end PctDiff
